import Mathlib

/-!
# Verification of the workbench resource components

Shallow embedding of `src/vs/workbench/common/resources.ts`
(`ResourceContextKey`, `ResourceGlobMatcher`) and
`src/vs/editor/browser/widget/embeddedCodeEditorWidget.ts`
(`EmbeddedCodeEditorWidget` / `EmbeddedDiffEditorWidget`).

The collaborators that live outside the two source files
(`vs/base/common/paths`, `vs/base/common/objects`, `vs/base/common/glob`,
the context-key, configuration and workspace services, and the base editor
widgets) are modelled from the specification's description of their
contracts; each such definition carries a doc comment saying so.

Events are delivered serially on a single event loop, so the component is
embedded as a pure state machine: every listener invocation is one atomic
state transition, and a `matches` query can only observe the state between
transitions.
-/

/-! ## Path helpers (collaborator `vs/base/common/paths`, not under `src/`) -/

/-- Split a path into its non-empty `/`-separated segments. -/
def splitSegsAux (cur : List Char) : List Char → List (List Char)
  | [] => [cur.reverse]
  | c :: cs => if c = '/' then cur.reverse :: splitSegsAux [] cs else splitSegsAux (c :: cur) cs

/-- Modelled from the spec: the path of a resource decomposed into segments
between `/` separators (collaborator `paths` module is not under `src/`). -/
def splitPath (p : String) : List String :=
  ((splitSegsAux [] p.data).map (fun cs => String.mk cs)).filter (fun s => s ≠ "")

/-- One step of path normalization: drop `.` segments and resolve `..`
against the already-normalized prefix. -/
def normStep (acc : List String) (seg : String) : List String :=
  if seg = "." then acc
  else if seg = ".." then
    match acc.getLast? with
    | none => [".."]
    | some last => if last = ".." then acc ++ [".."] else acc.dropLast
  else acc ++ [seg]

/-- Modelled from the spec: `paths.normalize` — resolve `.` and `..`
segments of a relative path (collaborator `paths` module is not under
`src/`). -/
def normalizePath (p : String) : String :=
  String.intercalate "/" ((splitPath p).foldl normStep [])

/-- Relative path between two segment lists: strip the common prefix, then
ascend with `..` for what remains of the base and descend into the target. -/
def relSegs : List String → List String → List String
  | b :: br, t :: tr => if b = t then relSegs br tr else List.replicate (br.length + 1) ".." ++ (t :: tr)
  | [], ts => ts
  | bs, [] => List.replicate bs.length ".."

/-- Modelled from the spec: `paths.relative` — "compute the path relative to
that root's filesystem path" (collaborator `paths` module is not under
`src/`). -/
def relativePath (base target : String) : String :=
  String.intercalate "/" (relSegs (splitPath base) (splitPath target))

/-- Modelled from the spec: `paths.basename` — the segment of a path after
the last separator (collaborator `paths` module is not under `src/`). -/
def basenameOf (p : String) : String :=
  match ((splitSegsAux [] p.data).map (fun cs => String.mk cs)).getLast? with
  | some s => s
  | none => p

/-- Modelled from the spec: `paths.extname` — the suffix of the basename
from its last dot (collaborator `paths` module is not under `src/`). -/
def extnameOf (p : String) : String :=
  match (basenameOf p).splitOn "." with
  | [] => ""
  | [_] => ""
  | parts => "." ++ (match parts.getLast? with | some s => s | none => "")

/-! ## Glob expressions (collaborator `vs/base/common/glob`, not under `src/`) -/

/-- An exclusion config (`IExpression`): a plain object mapping glob pattern
strings to enable flags, embedded as an association list. -/
def IExpression : Type := List (String × Bool)

instance : DecidableEq IExpression := by
  unfold IExpression
  infer_instance

/-- First binding of a key in an expression object, like property lookup. -/
def exprLookup (e : IExpression) (k : String) : Option Bool :=
  (e.find? (fun kv => kv.1 = k)).map (fun kv => kv.2)

/-- Modelled from the spec: `objects.equals` — deep equality of two config
objects: same key set, and each key bound to the same flag (collaborator
`objects` module is not under `src/`). -/
def equals (a b : IExpression) : Bool :=
  (a.all (fun kv => exprLookup b kv.1 = some kv.2)) &&
    (b.all (fun kv => exprLookup a kv.1 = some kv.2))

/-- Modelled from the spec: `objects.clone` — a defensive copy; on immutable
embedded values the copy is the value itself (collaborator `objects` module
is not under `src/`). -/
def clone (e : IExpression) : IExpression := e

/-- A compiled matcher (`ParsedExpression`). `compileId` embeds the object
identity of the closure returned by each call of the glob compiler: every
compilation yields a fresh id, so equality of ids models reference equality.
`source` is the config the matcher was compiled from. -/
structure ParsedExpression where
  compileId : Nat
  source : IExpression
deriving DecidableEq

/-- Modelled from the spec: the glob compiler `parse` ("compile(ExclusionConfig)
→ CompiledMatcher"); the matcher's behaviour is determined by the config it
was compiled from, and `compileId` is the fresh identity of this compilation
(collaborator `glob` module is not under `src/`). -/
def parse (compileId : Nat) (expr : IExpression) : ParsedExpression :=
  { compileId := compileId, source := expr }

/-- The primitive semantics of a single glob pattern against a path, a
parameter of the whole development (pattern syntax is the glob collaborator's
concern, outside this component). -/
def GlobSem : Type := String → String → Bool

/-- Modelled from the spec: "CompiledMatcher(path) → optional matched-pattern"
— the first enabled pattern of the config that matches the path. -/
def evalExpression (m : GlobSem) (e : IExpression) (path : String) : Option String :=
  (e.find? (fun kv => kv.2 && m kv.1 path)).map (fun kv => kv.1)

/-- Evaluation of a compiled matcher: determined by its source config. -/
def evalParsed (m : GlobSem) (p : ParsedExpression) (path : String) : Option String :=
  evalExpression m p.source path

/-! ## Association-list maps (embedding of the two JS `Map`s) -/

/-- The embedding of `Map.get`: the value at the first entry with the given key. -/
def aget {κ α : Type} [DecidableEq κ] : List (κ × α) → κ → Option α
  | [], _ => none
  | (k', v) :: rest, k => if k' = k then some v else aget rest k

/-- The embedding of `Map.set`: replace the first entry with the key, else append. -/
def aset {κ α : Type} [DecidableEq κ] : List (κ × α) → κ → α → List (κ × α)
  | [], k, v => [(k, v)]
  | (k', v') :: rest, k, v =>
      if k' = k then (k, v) :: rest else (k', v') :: aset rest k v

/-- The embedding of `Map.has`. -/
def ahas {κ α : Type} [DecidableEq κ] (l : List (κ × α)) (k : κ) : Bool :=
  (aget l k).isSome

/-! ## Workspace, configuration and resource model -/

/-- A workspace folder, with the string form of its URI (the map key used by
the source) and its filesystem path. -/
structure Folder where
  uriString : String
  fsPath : String
deriving DecidableEq

/-- A resource, with the string form of its URI and its filesystem path. -/
structure Resource where
  uriString : String
  fsPath : String
deriving DecidableEq

/-- The workspace context service as seen during one event delivery: the
current folder list and the owning-folder resolution for any URI (applied to
its string form). -/
structure Workspace where
  folders : List Folder
  getWorkspaceFolder : String → Option Folder

/-- A configuration-change event payload, opaque to this component except
through the `shouldUpdate` predicate. -/
structure IConfigurationChangeEvent where
  id : Nat
deriving DecidableEq

/-- The caller-supplied glob provider: `none` asks for the global/fallback
config, `some u` for the config of the root whose URI string is `u`. -/
def GlobFn : Type := Option String → IExpression

/-! ## ResourceGlobMatcher -/

/-- The state of a `ResourceGlobMatcher`: the two root-keyed maps, the
fresh-identity counter for compilations, and whether `dispose` has run.
The key `none` is the `NO_ROOT` sentinel (`null` in the source): it is a
distinct value from every root URI string, as `null === string` never holds. -/
structure ResourceGlobMatcher where
  mapRootToParsedExpression : List (Option String × ParsedExpression)
  mapRootToExpressionConfig : List (Option String × IExpression)
  nextCompileId : Nat
  disposed : Bool
deriving DecidableEq

namespace ResourceGlobMatcher

/-- The state before the constructor body runs: empty maps, not disposed. -/
def initState : ResourceGlobMatcher :=
  { mapRootToParsedExpression := []
    mapRootToExpressionConfig := []
    nextCompileId := 0
    disposed := false }

/-- The equality gate of step 1 of `updateExcludes`: a config for this
folder is already stored and is deeply equal to the freshly fetched one. -/
def step1keep (g : GlobFn) (s : ResourceGlobMatcher) (f : Folder) : Bool :=
  match aget s.mapRootToExpressionConfig (some f.uriString) with
  | some c => equals c (g (some f.uriString))
  | none => false

/-- The replacement of step 1 of `updateExcludes`: store a fresh compilation
in the parsed map and a defensive copy in the config map, under the folder's
URI-string key. -/
def step1set (g : GlobFn) (s : ResourceGlobMatcher) (f : Folder) : ResourceGlobMatcher :=
  { s with
    mapRootToParsedExpression :=
      aset s.mapRootToParsedExpression (some f.uriString)
        (parse s.nextCompileId (g (some f.uriString)))
    mapRootToExpressionConfig :=
      aset s.mapRootToExpressionConfig (some f.uriString) (clone (g (some f.uriString)))
    nextCompileId := s.nextCompileId + 1 }

/-- Step 1 of `updateExcludes`: for each current workspace folder, fetch its
excludes and, unless a deeply-equal config is already stored, store a fresh
compilation and a clone of the config, recording a change. -/
def step1 (g : GlobFn) : List Folder → ResourceGlobMatcher → Bool → ResourceGlobMatcher × Bool
  | [], s, changed => (s, changed)
  | f :: rest, s, changed =>
      if step1keep g s f then step1 g rest s changed
      else step1 g rest (step1set g s f) true

/-- A stored root key whose workspace folder no longer exists; the `NO_ROOT`
key (`none`) is never dead. -/
def deadKey (ws : Workspace) : Option String → Bool
  | none => false
  | some u => !(ws.getWorkspaceFolder u).isSome

/-- A parsed-map entry survives step 2 unless its key is visited in the
config-map iteration (it is a stored config key) and its folder is gone. -/
def step2keepParsed (ws : Workspace) (s : ResourceGlobMatcher) (k : Option String) : Bool :=
  !(deadKey ws k && ahas s.mapRootToExpressionConfig k)

/-- A config-map entry survives step 2 unless its folder is gone. -/
def step2keepConfig (ws : Workspace) (k : Option String) : Bool :=
  !deadKey ws k

/-- Step 2 of `updateExcludes`: iterate the config map and remove, from both
maps, every stored root (except `NO_ROOT`) whose folder is gone. -/
def step2 (ws : Workspace) (s : ResourceGlobMatcher) : ResourceGlobMatcher × Bool :=
  ({ s with
     mapRootToParsedExpression :=
       s.mapRootToParsedExpression.filter (fun kv => step2keepParsed ws s kv.1)
     mapRootToExpressionConfig :=
       s.mapRootToExpressionConfig.filter (fun kv => step2keepConfig ws kv.1) },
   s.mapRootToExpressionConfig.any (fun kv => deadKey ws kv.1))

/-- The equality gate of step 3 of `updateExcludes`: a global (`NO_ROOT`)
config is already stored and is deeply equal to the freshly fetched one. -/
def step3keep (g : GlobFn) (s : ResourceGlobMatcher) : Bool :=
  match aget s.mapRootToExpressionConfig none with
  | some c => equals c (g none)
  | none => false

/-- The replacement of step 3 of `updateExcludes` under the `NO_ROOT` key. -/
def step3set (g : GlobFn) (s : ResourceGlobMatcher) : ResourceGlobMatcher :=
  { s with
    mapRootToParsedExpression :=
      aset s.mapRootToParsedExpression none (parse s.nextCompileId (g none))
    mapRootToExpressionConfig :=
      aset s.mapRootToExpressionConfig none (clone (g none))
    nextCompileId := s.nextCompileId + 1 }

/-- Step 3 of `updateExcludes`: the same equality-gated replacement for the
global (`NO_ROOT`) excludes. -/
def step3 (g : GlobFn) (s : ResourceGlobMatcher) : ResourceGlobMatcher × Bool :=
  if step3keep g s then (s, false) else (step3set g s, true)

/-- The body of `updateExcludes` without the firing decision: the new state and the
accumulated `changed` flag. `fromEvent` influences only the firing, not the
state, so it is not a parameter here. -/
def updateExcludes (ws : Workspace) (g : GlobFn) (s : ResourceGlobMatcher) :
    ResourceGlobMatcher × Bool :=
  let r1 := step1 g ws.folders s false
  let r2 := step2 ws r1.1
  let r3 := step3 g r2.1
  (r3.1, r1.2 || r2.2 || r3.2)

/-- How many times `updateExcludes(fromEvent)` fires `_onExpressionChange`:
the single guarded `fire()` call at its end. -/
def updateFires (ws : Workspace) (g : GlobFn) (fromEvent : Bool) (s : ResourceGlobMatcher) : Nat :=
  if fromEvent && (updateExcludes ws g s).2 then 1 else 0

/-- The constructor body: initial `updateExcludes(false)` on empty maps. -/
def construct (ws : Workspace) (g : GlobFn) : ResourceGlobMatcher :=
  (updateExcludes ws g initState).1

/-- Notifications fired during construction: the initial pass runs with
`fromEvent = false`. -/
def constructFires (ws : Workspace) (g : GlobFn) : Nat :=
  updateFires ws g false initState

/-- Delivery of a configuration-change event: after disposal the listener is
unsubscribed, so nothing runs; otherwise `updateExcludes(true)` runs when the
`shouldUpdate` predicate accepts the event. Returns the new state and the
number of `onExpressionChange` notifications fired. -/
def stepConfig (shouldUpdate : IConfigurationChangeEvent → Bool)
    (e : IConfigurationChangeEvent) (ws : Workspace) (g : GlobFn)
    (s : ResourceGlobMatcher) : ResourceGlobMatcher × Nat :=
  if s.disposed then (s, 0)
  else if shouldUpdate e then ((updateExcludes ws g s).1, updateFires ws g true s)
  else (s, 0)

/-- Delivery of a workspace-folders-change event: after disposal nothing
runs; otherwise `updateExcludes(true)` runs unconditionally. -/
def stepFolders (ws : Workspace) (g : GlobFn) (s : ResourceGlobMatcher) :
    ResourceGlobMatcher × Nat :=
  if s.disposed then (s, 0)
  else ((updateExcludes ws g s).1, updateFires ws g true s)

/-- The embedding of `dispose`: unsubscribes the listeners and disposes the emitter; the two
maps are left untouched. -/
def dispose (s : ResourceGlobMatcher) : ResourceGlobMatcher :=
  { s with disposed := true }

/-- The embedding of `matches`. `Except.error ()` embeds the `TypeError` a JavaScript call of
the `undefined` value would raise when neither a per-root nor a `NO_ROOT`
compiled matcher is stored; `Except.ok b` is a normal boolean return. -/
def matches' (m : GlobSem) (ws : Workspace) (s : ResourceGlobMatcher) (r : Resource) :
    Except Unit Bool :=
  let folder := ws.getWorkspaceFolder r.uriString
  let expressionForRoot : Option ParsedExpression :=
    match folder with
    | some f =>
        if ahas s.mapRootToParsedExpression (some f.uriString)
        then aget s.mapRootToParsedExpression (some f.uriString)
        else aget s.mapRootToParsedExpression none
    | none => aget s.mapRootToParsedExpression none
  let resourcePathToMatch : String :=
    match folder with
    | some f => normalizePath (relativePath f.fsPath r.fsPath)
    | none => r.fsPath
  match expressionForRoot with
  | some pe => Except.ok (evalParsed m pe resourcePathToMatch).isSome
  | none => Except.error ()

/-- The states a `ResourceGlobMatcher` can be in: just constructed, or the
result of delivering one more event (each with its own current workspace and
provider behaviour), or disposed. -/
inductive Reachable (shouldUpdate : IConfigurationChangeEvent → Bool) :
    ResourceGlobMatcher → Prop
  | init (ws : Workspace) (g : GlobFn) : Reachable shouldUpdate (construct ws g)
  | configStep (e : IConfigurationChangeEvent) (ws : Workspace) (g : GlobFn)
      (s : ResourceGlobMatcher) (h : Reachable shouldUpdate s) :
      Reachable shouldUpdate (stepConfig shouldUpdate e ws g s).1
  | foldersStep (ws : Workspace) (g : GlobFn)
      (s : ResourceGlobMatcher) (h : Reachable shouldUpdate s) :
      Reachable shouldUpdate (stepFolders ws g s).1
  | disposeStep (s : ResourceGlobMatcher) (h : Reachable shouldUpdate s) :
      Reachable shouldUpdate (dispose s)

/-- The two maps always hold the same root keys, and the compiled matcher
stored for a key was compiled from exactly the config stored for that key. -/
def Inv (s : ResourceGlobMatcher) : Prop :=
  ∀ k, ((aget s.mapRootToParsedExpression k).isSome ↔
          (aget s.mapRootToExpressionConfig k).isSome) ∧
    ∀ p e, aget s.mapRootToParsedExpression k = some p →
      aget s.mapRootToExpressionConfig k = some e → p.source = e

/-- A `NO_ROOT` entry is stored in both maps. -/
def hasNoRoot (s : ResourceGlobMatcher) : Prop :=
  (aget s.mapRootToParsedExpression none).isSome ∧
    (aget s.mapRootToExpressionConfig none).isSome

end ResourceGlobMatcher

/-! ## ResourceContextKey -/

/-- A URI as `ResourceContextKey` consumes it: its scheme and its
filesystem path. -/
structure URI where
  scheme : String
  fsPath : String
deriving DecidableEq

/-- The values currently bound to the five resource context keys. -/
structure ResourceContextKey where
  resourceKey : Option URI
  schemeKey : Option String
  filenameKey : Option String
  langIdKey : Option String
  extensionKey : Option String
deriving DecidableEq

namespace ResourceContextKey

/-- The five context keys, used to record which keys `reset()` touches. -/
inductive KeyName where
  | resource
  | scheme
  | filename
  | langId
  | extension
deriving DecidableEq

/-- The embedding of `set(value)`: binds all five keys from the value. `getMode` embeds the
`IModeService.getModeIdByFilenameOrFirstLine` collaborator, which may return
no mode; a `none` value models `set(null)`, where `value && e` short-circuits
to the null value. -/
def set (getMode : String → Option String) (value : Option URI)
    (s : ResourceContextKey) : ResourceContextKey :=
  { s with
    resourceKey := value
    schemeKey := value.map (fun v => v.scheme)
    filenameKey := value.map (fun v => basenameOf v.fsPath)
    langIdKey := value.bind (fun v => getMode v.fsPath)
    extensionKey := value.map (fun v => extnameOf v.fsPath) }

/-- The sequence of per-key `reset()` calls the `reset` method performs, in
source order (`resources.ts` lines 54-58): the scheme, language-id, resource,
again language-id, and extension keys — the filename key is absent and the
language-id key occurs twice. -/
def resetActions : List KeyName :=
  [KeyName.scheme, KeyName.langId, KeyName.resource, KeyName.langId, KeyName.extension]

/-- Resetting one context key clears its binding. -/
def applyReset (s : ResourceContextKey) (k : KeyName) : ResourceContextKey :=
  match k with
  | KeyName.resource => { s with resourceKey := none }
  | KeyName.scheme => { s with schemeKey := none }
  | KeyName.filename => { s with filenameKey := none }
  | KeyName.langId => { s with langIdKey := none }
  | KeyName.extension => { s with extensionKey := none }

/-- The embedding of `reset()`: performs the recorded sequence of per-key resets. -/
def reset (s : ResourceContextKey) : ResourceContextKey :=
  resetActions.foldl applyReset s

/-- The embedding of `get()`: the resource key's current value. -/
def get (s : ResourceContextKey) : Option URI :=
  s.resourceKey

end ResourceContextKey

/-! ## Embedded editor widgets -/

/-- A JS option value: an atomic setting or a nested option object. -/
inductive OptVal where
  | prim : Nat → OptVal
  | obj : List (String × OptVal) → OptVal

/-- A (possibly nested) option object, as passed to `updateOptions`. -/
def OptFields : Type := List (String × OptVal)

mutual

/-- Modelled from the spec: `objects.mixin(destination, source, overwrite =
true)` on a single value — two objects merge recursively, anything else is
overwritten by the source (collaborator `objects` module is not under
`src/`). -/
def mixinVal : OptVal → OptVal → OptVal
  | OptVal.obj df, OptVal.obj sf => OptVal.obj (mixin df sf)
  | OptVal.prim _, s => s
  | OptVal.obj _, OptVal.prim n => OptVal.prim n
termination_by d s => sizeOf s

/-- Modelled from the spec: `objects.mixin(destination, source, overwrite =
true)` on option objects — each source property is merged into the
destination, recursing when both sides hold objects (collaborator `objects`
module is not under `src/`). -/
def mixin : List (String × OptVal) → List (String × OptVal) → List (String × OptVal)
  | df, [] => df
  | df, (k, sv) :: rest =>
      match aget df k with
      | some dv => mixin (aset df k (mixinVal dv sv)) rest
      | none => mixin (df ++ [(k, sv)]) rest
termination_by df sf => sizeOf sf

end

/-- The atomic option value stored at a path of keys, if any. -/
def leafAtVal : List String → OptVal → Option Nat
  | [], OptVal.prim v => some v
  | k :: rest, OptVal.obj fs =>
      match aget fs k with
      | some w => leafAtVal rest w
      | none => none
  | _, _ => none

/-- The atomic option value an option object stores at a path of keys. -/
def leafAt (fs : OptFields) (p : List String) : Option Nat :=
  leafAtVal p (OptVal.obj fs)

/-- A well-formed JS option value: object keys are duplicate-free at every
nesting level. -/
inductive WFVal : OptVal → Prop
  | prim (v : Nat) : WFVal (OptVal.prim v)
  | obj (fs : List (String × OptVal)) (hnd : (fs.map Prod.fst).Nodup)
      (hall : ∀ kv ∈ fs, WFVal kv.2) : WFVal (OptVal.obj fs)

/-- A well-formed option object. -/
def WFFields (fs : OptFields) : Prop :=
  WFVal (OptVal.obj fs)

/-- The state of an `EmbeddedCodeEditorWidget`; `EmbeddedDiffEditorWidget`
carries the identical logic. `overwriteOptions` is `_overwriteOptions`;
`effectiveOptions` is the base editor widget's current option object. -/
structure EmbeddedCodeEditorWidget where
  overwriteOptions : OptFields
  effectiveOptions : OptFields

namespace EmbeddedCodeEditorWidget

/-- Modelled from the spec: the base editor's `updateOptions` (classes
`CodeEditor` / `DiffEditorWidget`, not under `src/`) deep-mixes the given
options into the editor's current effective configuration. -/
def superUpdateOptions (effective opts : OptFields) : OptFields :=
  mixin effective opts

/-- The constructor: the base editor is created on the parent's raw
configuration, then the overwrite options are applied on top of it. -/
def construct (parentRaw opts : OptFields) : EmbeddedCodeEditorWidget :=
  { overwriteOptions := opts
    effectiveOptions := superUpdateOptions parentRaw opts }

/-- The embedding of `updateOptions(newOptions)`: deep-mix the new options into the stored
`_overwriteOptions`, then apply the whole overwrite set to the base editor. -/
def updateOptions (w : EmbeddedCodeEditorWidget) (newOptions : OptFields) :
    EmbeddedCodeEditorWidget :=
  { overwriteOptions := mixin w.overwriteOptions newOptions
    effectiveOptions :=
      superUpdateOptions w.effectiveOptions (mixin w.overwriteOptions newOptions) }

/-- The embedding of `_onParentConfigurationChanged`: apply the parent's current raw
configuration, then re-apply the overwrite set on top. -/
def onParentConfigurationChanged (w : EmbeddedCodeEditorWidget)
    (parentRaw : OptFields) : EmbeddedCodeEditorWidget :=
  { w with
    effectiveOptions :=
      superUpdateOptions (superUpdateOptions w.effectiveOptions parentRaw)
        w.overwriteOptions }

/-- Widget states arising from construction followed by any interleaving of
`updateOptions` calls and parent configuration changes; option objects handed
in from outside are well-formed JS objects (duplicate-free keys). -/
inductive WReach : EmbeddedCodeEditorWidget → Prop
  | init (parentRaw opts : OptFields) (h : WFFields opts) :
      WReach (construct parentRaw opts)
  | upd (w : EmbeddedCodeEditorWidget) (newOptions : OptFields) (hw : WReach w)
      (h : WFFields newOptions) : WReach (updateOptions w newOptions)
  | parent (w : EmbeddedCodeEditorWidget) (parentRaw : OptFields) (hw : WReach w) :
      WReach (onParentConfigurationChanged w parentRaw)

end EmbeddedCodeEditorWidget

/-! ## Concrete fixtures used to exercise the definitions -/

deriving instance DecidableEq for Except

/-- A sample workspace folder rooted at `/ws`. -/
def sampleFolder : Folder :=
  { uriString := "file:///ws", fsPath := "/ws" }

/-- A sample workspace with the single root `/ws`, owning `/ws` itself and a
file below it. -/
def sampleWorkspace : Workspace :=
  { folders := [sampleFolder]
    getWorkspaceFolder := fun u =>
      if u = "file:///ws" then some sampleFolder
      else if u = "file:///ws/src/file.txt" then some sampleFolder
      else none }

/-- A sample workspace with no folders at all. -/
def emptyWorkspace : Workspace :=
  { folders := [], getWorkspaceFolder := fun _ => none }

/-- A sample glob provider: per-root `build/**`, globally `**/*.log`. -/
def sampleGlob : GlobFn := fun r =>
  match r with
  | some _ => [("build/**", true)]
  | none => [("**/*.log", true)]

/-- A sample configuration-change event. -/
def sampleEvent : IConfigurationChangeEvent := { id := 0 }

/-- A sample glob-pattern semantics: literal equality of pattern and path. -/
def sampleSem : GlobSem := fun pat path => pat == path

/-- A resource at `/ws/src/file.txt` inside the sample workspace. -/
def sampleResource : Resource :=
  { uriString := "file:///ws/src/file.txt", fsPath := "/ws/src/file.txt" }

/-- The matcher state just after construction in the sample workspace. -/
def sampleState : ResourceGlobMatcher :=
  ResourceGlobMatcher.construct sampleWorkspace sampleGlob

/-! ## Lemmas: association-list maps -/

theorem aget_aset_self {κ α : Type} [DecidableEq κ] (l : List (κ × α)) (k : κ) (v : α) :
    aget (aset l k v) k = some v := by
  induction l with
  | nil => simp [aset, aget]
  | cons kv rest ih =>
    obtain ⟨k', v'⟩ := kv
    by_cases h : k' = k
    · simp [aset, h, aget]
    · simp [aset, h, aget, ih]

theorem aget_aset_ne {κ α : Type} [DecidableEq κ] (l : List (κ × α)) (k k' : κ) (v : α)
    (h : k' ≠ k) : aget (aset l k v) k' = aget l k' := by
  have h' : ¬(k = k') := fun he => h he.symm
  induction l with
  | nil => simp [aset, aget, h']
  | cons kv rest ih =>
    obtain ⟨k₀, v₀⟩ := kv
    by_cases h0 : k₀ = k
    · subst h0
      simp [aset, aget, h']
    · simp only [aset, if_neg h0]
      by_cases h1 : k₀ = k'
      · simp [aget, h1]
      · simp [aget, h1, ih]

theorem aget_filter {κ α : Type} [DecidableEq κ] (p : κ → Bool) (l : List (κ × α)) (k : κ) :
    aget (l.filter (fun kv => p kv.1)) k = if p k then aget l k else none := by
  induction l with
  | nil => simp [aget]
  | cons kv rest ih =>
    obtain ⟨k', v⟩ := kv
    by_cases hp : p k'
    · rw [List.filter_cons_of_pos (by simpa using hp)]
      by_cases hk : k' = k
      · subst hk
        simp [aget, hp]
      · simp [aget, hk, ih]
    · rw [List.filter_cons_of_neg (by simpa using hp)]
      by_cases hk : k' = k
      · subst hk
        simp [aget, hp, ih]
      · simp [aget, hk, ih]

/-! ## Lemmas: the synchronization pass -/

namespace ResourceGlobMatcher

theorem step1_changed_mono (g : GlobFn) (folders : List Folder) (s : ResourceGlobMatcher) :
    (step1 g folders s true).2 = true := by
  induction folders generalizing s with
  | nil => rfl
  | cons f rest ih =>
    cases hkeep : step1keep g s f with
    | true => simpa [step1, hkeep] using ih s
    | false => simpa [step1, hkeep] using ih (step1set g s f)

theorem step1_id_mono (g : GlobFn) (folders : List Folder) (s : ResourceGlobMatcher)
    (changed : Bool) : s.nextCompileId ≤ (step1 g folders s changed).1.nextCompileId := by
  induction folders generalizing s changed with
  | nil => simp [step1]
  | cons f rest ih =>
    cases hkeep : step1keep g s f with
    | true =>
      simpa [step1, hkeep] using ih s changed
    | false =>
      have h1 := ih (step1set g s f) true
      have h2 : s.nextCompileId ≤ (step1set g s f).nextCompileId := by
        simp [step1set]
      simpa [step1, hkeep] using le_trans h2 h1

theorem step1_frame (g : GlobFn) (folders : List Folder) (s : ResourceGlobMatcher)
    (changed : Bool) (k : Option String) (hk : ∀ f ∈ folders, some f.uriString ≠ k) :
    aget (step1 g folders s changed).1.mapRootToParsedExpression k =
        aget s.mapRootToParsedExpression k ∧
      aget (step1 g folders s changed).1.mapRootToExpressionConfig k =
        aget s.mapRootToExpressionConfig k := by
  induction folders generalizing s changed with
  | nil => simp [step1]
  | cons f rest ih =>
    have hf : (some f.uriString : Option String) ≠ k := hk f (by simp)
    have hrest : ∀ f' ∈ rest, (some f'.uriString : Option String) ≠ k :=
      fun f' hf' => hk f' (by simp [hf'])
    cases hkeep : step1keep g s f with
    | true => simpa [step1, hkeep] using ih s changed hrest
    | false =>
      have h1 := ih (step1set g s f) true hrest
      have h2 : aget (step1set g s f).mapRootToParsedExpression k =
          aget s.mapRootToParsedExpression k := by
        simp [step1set, aget_aset_ne _ _ _ _ (fun he => hf he.symm)]
      have h3 : aget (step1set g s f).mapRootToExpressionConfig k =
          aget s.mapRootToExpressionConfig k := by
        simp [step1set, aget_aset_ne _ _ _ _ (fun he => hf he.symm)]
      simp only [step1, hkeep]
      exact ⟨h1.1.trans h2, h1.2.trans h3⟩

theorem step1_stable (g : GlobFn) (folders : List Folder) (s : ResourceGlobMatcher)
    (changed : Bool) (u : String) (c : IExpression)
    (hc : aget s.mapRootToExpressionConfig (some u) = some c)
    (he : equals c (g (some u)) = true) :
    aget (step1 g folders s changed).1.mapRootToParsedExpression (some u) =
        aget s.mapRootToParsedExpression (some u) ∧
      aget (step1 g folders s changed).1.mapRootToExpressionConfig (some u) = some c := by
  induction folders generalizing s changed with
  | nil => simp [step1, hc]
  | cons f rest ih =>
    by_cases hf : f.uriString = u
    · have hkeep : step1keep g s f = true := by
        simp [step1keep, hf, hc, he]
      simpa [step1, hkeep] using ih s changed hc
    · have hne : (some f.uriString : Option String) ≠ some u := by simp [hf]
      cases hkeep : step1keep g s f with
      | true => simpa [step1, hkeep] using ih s changed hc
      | false =>
        have hc' : aget (step1set g s f).mapRootToExpressionConfig (some u) = some c := by
          simpa [step1set, aget_aset_ne _ _ _ _ (fun hx => hne hx.symm)] using hc
        have h1 := ih (step1set g s f) true hc'
        have h2 : aget (step1set g s f).mapRootToParsedExpression (some u) =
            aget s.mapRootToParsedExpression (some u) := by
          simp [step1set, aget_aset_ne _ _ _ _ (fun hx => hne hx.symm)]
        simp only [step1, hkeep]
        exact ⟨h1.1.trans h2, h1.2⟩

theorem step1_all_equal (g : GlobFn) (folders : List Folder) (s : ResourceGlobMatcher)
    (changed : Bool)
    (h : ∀ f ∈ folders, ∃ c, aget s.mapRootToExpressionConfig (some f.uriString) = some c ∧
      equals c (g (some f.uriString)) = true) :
    step1 g folders s changed = (s, changed) := by
  induction folders with
  | nil => rfl
  | cons f rest ih =>
    obtain ⟨c, hc, he⟩ := h f (by simp)
    have hkeep : step1keep g s f = true := by
      simp [step1keep, hc, he]
    have hrest : ∀ f' ∈ rest, ∃ c, aget s.mapRootToExpressionConfig (some f'.uriString) = some c ∧
        equals c (g (some f'.uriString)) = true :=
      fun f' hf' => h f' (by simp [hf'])
    simpa [step1, hkeep] using ih hrest

theorem step1_Q (g : GlobFn) (folders : List Folder) (s : ResourceGlobMatcher)
    (changed : Bool) (u : String) (bound : Nat)
    (hb : bound ≤ s.nextCompileId)
    (hcfg : aget s.mapRootToExpressionConfig (some u) = some (g (some u)))
    (hp : ∃ p, aget s.mapRootToParsedExpression (some u) = some p ∧
      p.source = g (some u) ∧ bound ≤ p.compileId) :
    aget (step1 g folders s changed).1.mapRootToExpressionConfig (some u) = some (g (some u)) ∧
      ∃ p, aget (step1 g folders s changed).1.mapRootToParsedExpression (some u) = some p ∧
        p.source = g (some u) ∧ bound ≤ p.compileId := by
  induction folders generalizing s changed with
  | nil =>
    exact ⟨by simpa [step1] using hcfg, by simpa [step1] using hp⟩
  | cons f rest ih =>
    cases hkeep : step1keep g s f with
    | true =>
      simp only [step1, hkeep]
      exact ih s changed hb hcfg hp
    | false =>
      simp only [step1, hkeep]
      by_cases hf : f.uriString = u
      · subst hf
        refine ih (step1set g s f) true (by simp [step1set]; omega) ?_ ?_
        · simp [step1set, clone, aget_aset_self]
        · exact ⟨parse s.nextCompileId (g (some f.uriString)),
            by simp [step1set, aget_aset_self], rfl, hb⟩
      · have hne : (some f.uriString : Option String) ≠ some u := by simp [hf]
        refine ih (step1set g s f) true (by simp [step1set]; omega) ?_ ?_
        · simpa [step1set, aget_aset_ne _ _ _ _ (fun hx => hne hx.symm)] using hcfg
        · simpa [step1set, aget_aset_ne _ _ _ _ (fun hx => hne hx.symm)] using hp

theorem step1_replace (g : GlobFn) (folders : List Folder) (s : ResourceGlobMatcher)
    (changed : Bool) (u : String)
    (hu : ∃ f ∈ folders, f.uriString = u)
    (hne : ∀ c, aget s.mapRootToExpressionConfig (some u) = some c →
      equals c (g (some u)) = false) :
    (aget (step1 g folders s changed).1.mapRootToExpressionConfig (some u) =
        some (g (some u)) ∧
      ∃ p, aget (step1 g folders s changed).1.mapRootToParsedExpression (some u) = some p ∧
        p.source = g (some u) ∧ s.nextCompileId ≤ p.compileId) ∧
      (step1 g folders s changed).2 = true := by
  induction folders generalizing s changed with
  | nil => simp at hu
  | cons f rest ih =>
    by_cases hf : f.uriString = u
    · subst hf
      have hkeep : step1keep g s f = false := by
        unfold step1keep
        cases hc : aget s.mapRootToExpressionConfig (some f.uriString) with
        | none => rfl
        | some c => simpa using hne c hc
      simp only [step1, hkeep, Bool.false_eq_true, if_false]
      constructor
      · refine step1_Q g rest (step1set g s f) true f.uriString s.nextCompileId
          (by simp [step1set]) ?_ ?_
        · simp [step1set, clone, aget_aset_self]
        · exact ⟨parse s.nextCompileId (g (some f.uriString)),
            by simp [step1set, aget_aset_self], rfl, le_refl _⟩
      · exact step1_changed_mono g rest (step1set g s f)
    · have hu' : ∃ f' ∈ rest, f'.uriString = u := by
        obtain ⟨f', hf', he'⟩ := hu
        rcases List.mem_cons.mp hf' with h | h
        · exact absurd (h ▸ he') hf
        · exact ⟨f', h, he'⟩
      have hns : (some f.uriString : Option String) ≠ some u := by simp [hf]
      cases hkeep : step1keep g s f with
      | true =>
        simp only [step1, hkeep]
        exact ih s changed hu' hne
      | false =>
        simp only [step1, hkeep, Bool.false_eq_true, if_false]
        have hne' : ∀ c, aget (step1set g s f).mapRootToExpressionConfig (some u) = some c →
            equals c (g (some u)) = false := by
          intro c hc
          exact hne c (by
            simpa [step1set, aget_aset_ne _ _ _ _ (fun hx => hns hx.symm)] using hc)
        have h1 := ih (step1set g s f) true hu' hne'
        refine ⟨⟨h1.1.1, ?_⟩, h1.2⟩
        obtain ⟨p, hp1, hp2, hp3⟩ := h1.1.2
        exact ⟨p, hp1, hp2, le_trans (by simp [step1set]) hp3⟩

theorem step2_parsed (ws : Workspace) (s : ResourceGlobMatcher) (k : Option String) :
    aget (step2 ws s).1.mapRootToParsedExpression k =
      if step2keepParsed ws s k then aget s.mapRootToParsedExpression k else none :=
  aget_filter (step2keepParsed ws s) s.mapRootToParsedExpression k

theorem step2_config (ws : Workspace) (s : ResourceGlobMatcher) (k : Option String) :
    aget (step2 ws s).1.mapRootToExpressionConfig k =
      if step2keepConfig ws k then aget s.mapRootToExpressionConfig k else none :=
  aget_filter (step2keepConfig ws) s.mapRootToExpressionConfig k

theorem step2_id (ws : Workspace) (s : ResourceGlobMatcher) :
    (step2 ws s).1.nextCompileId = s.nextCompileId := rfl

theorem step2_no_dead (ws : Workspace) (s : ResourceGlobMatcher)
    (h1 : ∀ kv ∈ s.mapRootToExpressionConfig, deadKey ws kv.1 = false)
    (h2 : ∀ kv ∈ s.mapRootToParsedExpression, deadKey ws kv.1 = false) :
    step2 ws s = (s, false) := by
  unfold step2
  rw [List.filter_eq_self.mpr, List.filter_eq_self.mpr, List.any_eq_false.mpr]
  · intro kv hkv
    simp [h1 kv hkv]
  · intro kv hkv
    simp [step2keepConfig, h1 kv hkv]
  · intro kv hkv
    simp [step2keepParsed, h2 kv hkv]

theorem step3_some (g : GlobFn) (s : ResourceGlobMatcher) (u : String) :
    aget (step3 g s).1.mapRootToParsedExpression (some u) =
        aget s.mapRootToParsedExpression (some u) ∧
      aget (step3 g s).1.mapRootToExpressionConfig (some u) =
        aget s.mapRootToExpressionConfig (some u) := by
  cases hkeep : step3keep g s with
  | true => simp [step3, hkeep]
  | false =>
    constructor
    · simp [step3, hkeep, step3set, aget_aset_ne _ _ _ _ (by simp : (some u : Option String) ≠ none)]
    · simp [step3, hkeep, step3set, aget_aset_ne _ _ _ _ (by simp : (some u : Option String) ≠ none)]

theorem step3_keep_of (g : GlobFn) (s : ResourceGlobMatcher) (c : IExpression)
    (hc : aget s.mapRootToExpressionConfig none = some c)
    (he : equals c (g none) = true) :
    step3 g s = (s, false) := by
  have hkeep : step3keep g s = true := by
    simp [step3keep, hc, he]
  simp [step3, hkeep]

theorem step3_keep_isSome (g : GlobFn) (s : ResourceGlobMatcher)
    (h : step3keep g s = true) :
    (aget s.mapRootToExpressionConfig none).isSome := by
  unfold step3keep at h
  cases hc : aget s.mapRootToExpressionConfig none with
  | none => rw [hc] at h; simp at h
  | some c => simp

theorem step3_hasNoRoot (g : GlobFn) (s : ResourceGlobMatcher)
    (hiff : (aget s.mapRootToParsedExpression none).isSome ↔
      (aget s.mapRootToExpressionConfig none).isSome) :
    hasNoRoot (step3 g s).1 := by
  cases hkeep : step3keep g s with
  | true =>
    have hc := step3_keep_isSome g s hkeep
    exact ⟨by simpa [step3, hkeep] using hiff.mpr hc, by simpa [step3, hkeep] using hc⟩
  | false =>
    constructor
    · simp [step3, hkeep, step3set, aget_aset_self]
    · simp [step3, hkeep, step3set, aget_aset_self]

/-! ## Lemmas: the in-sync invariant -/

theorem inv_initState : Inv initState := by
  intro k
  simp [initState, Inv, aget]

theorem step1_inv (g : GlobFn) (folders : List Folder) (s : ResourceGlobMatcher)
    (changed : Bool) (h : Inv s) : Inv (step1 g folders s changed).1 := by
  induction folders generalizing s changed with
  | nil => simpa [step1] using h
  | cons f rest ih =>
    cases hkeep : step1keep g s f with
    | true =>
      simp only [step1, hkeep]
      exact ih s changed h
    | false =>
      simp only [step1, hkeep, Bool.false_eq_true, if_false]
      refine ih (step1set g s f) true ?_
      intro k
      by_cases hk : k = some f.uriString
      · subst hk
        constructor
        · simp [step1set, aget_aset_self]
        · intro p e hp hecfg
          rw [step1set] at hp hecfg
          simp only [aget_aset_self] at hp hecfg
          cases hp
          cases hecfg
          rfl
      · have hne : (some f.uriString : Option String) ≠ k := fun hx => hk hx.symm
        constructor
        · simpa [step1set, aget_aset_ne _ _ _ _ (fun hx => hk hx)] using (h k).1
        · intro p e hp hecfg
          rw [step1set] at hp hecfg
          simp only [aget_aset_ne _ _ _ _ hk] at hp hecfg
          exact (h k).2 p e hp hecfg

theorem step2_inv (ws : Workspace) (s : ResourceGlobMatcher) (h : Inv s) :
    Inv (step2 ws s).1 := by
  intro k
  rw [step2_parsed, step2_config]
  cases hdead : deadKey ws k with
  | false =>
    have hkp : step2keepParsed ws s k = true := by simp [step2keepParsed, hdead]
    have hkc : step2keepConfig ws k = true := by simp [step2keepConfig, hdead]
    simp only [hkp, hkc, if_true]
    exact h k
  | true =>
    cases hhas : ahas s.mapRootToExpressionConfig k with
    | true =>
      have hkp : step2keepParsed ws s k = false := by simp [step2keepParsed, hdead, hhas]
      have hkc : step2keepConfig ws k = false := by simp [step2keepConfig, hdead]
      simp [hkp, hkc]
    | false =>
      have hkp : step2keepParsed ws s k = true := by simp [step2keepParsed, hdead, hhas]
      have hkc : step2keepConfig ws k = false := by simp [step2keepConfig, hdead]
      have hget : aget s.mapRootToExpressionConfig k = none := by
        unfold ahas at hhas
        cases hg : aget s.mapRootToExpressionConfig k with
        | none => rfl
        | some c => rw [hg] at hhas; simp at hhas
      have hpn : aget s.mapRootToParsedExpression k = none := by
        cases hp : aget s.mapRootToParsedExpression k with
        | none => rfl
        | some p =>
          have := (h k).1.mp (by simp [hp])
          rw [hget] at this
          simp at this
      simp [hkp, hkc, hpn]

theorem step3_inv (g : GlobFn) (s : ResourceGlobMatcher) (h : Inv s) :
    Inv (step3 g s).1 := by
  cases hkeep : step3keep g s with
  | true => simpa [step3, hkeep] using h
  | false =>
    intro k
    by_cases hk : k = (none : Option String)
    · subst hk
      constructor
      · simp [step3, hkeep, step3set, aget_aset_self]
      · intro p e hp hecfg
        rw [step3, if_neg (by simp [hkeep])] at hp hecfg
        simp only [step3set, aget_aset_self] at hp hecfg
        cases hp
        cases hecfg
        rfl
    · have hne : (none : Option String) ≠ k := fun hx => hk hx.symm
      constructor
      · simpa [step3, hkeep, step3set, aget_aset_ne _ _ _ _ hk] using (h k).1
      · intro p e hp hecfg
        rw [step3, if_neg (by simp [hkeep])] at hp hecfg
        simp only [step3set, aget_aset_ne _ _ _ _ hk] at hp hecfg
        exact (h k).2 p e hp hecfg

theorem updateExcludes_eq (ws : Workspace) (g : GlobFn) (s : ResourceGlobMatcher) :
    updateExcludes ws g s =
      ((step3 g (step2 ws (step1 g ws.folders s false).1).1).1,
        (step1 g ws.folders s false).2 || (step2 ws (step1 g ws.folders s false).1).2 ||
          (step3 g (step2 ws (step1 g ws.folders s false).1).1).2) := rfl

theorem updateExcludes_inv (ws : Workspace) (g : GlobFn) (s : ResourceGlobMatcher)
    (h : Inv s) : Inv (updateExcludes ws g s).1 := by
  rw [updateExcludes_eq]
  exact step3_inv _ _ (step2_inv _ _ (step1_inv _ _ _ _ h))

theorem updateExcludes_hasNoRoot (ws : Workspace) (g : GlobFn) (s : ResourceGlobMatcher)
    (h : Inv s) : hasNoRoot (updateExcludes ws g s).1 := by
  rw [updateExcludes_eq]
  exact step3_hasNoRoot _ _ ((step2_inv _ _ (step1_inv _ _ _ _ h) none).1)

theorem inv_dispose (s : ResourceGlobMatcher) (h : Inv s) : Inv (dispose s) := h

theorem hasNoRoot_dispose (s : ResourceGlobMatcher) (h : hasNoRoot s) :
    hasNoRoot (dispose s) := h

/-- Every reachable state keeps the two maps key-synchronized and in source
agreement, and stores a `NO_ROOT` entry. -/
theorem reachable_invariants {su : IConfigurationChangeEvent → Bool}
    {s : ResourceGlobMatcher} (h : Reachable su s) : Inv s ∧ hasNoRoot s := by
  induction h with
  | init ws g =>
    exact ⟨updateExcludes_inv ws g initState inv_initState,
      updateExcludes_hasNoRoot ws g initState inv_initState⟩
  | configStep e ws g s hr ih =>
    unfold stepConfig
    by_cases hd : s.disposed
    · simpa [hd] using ih
    · by_cases hsu : su e
      · simpa [hd, hsu] using
          ⟨updateExcludes_inv ws g s ih.1, updateExcludes_hasNoRoot ws g s ih.1⟩
      · simpa [hd, hsu] using ih
  | foldersStep ws g s hr ih =>
    unfold stepFolders
    by_cases hd : s.disposed
    · simpa [hd] using ih
    · simpa [hd] using
        ⟨updateExcludes_inv ws g s ih.1, updateExcludes_hasNoRoot ws g s ih.1⟩
  | disposeStep s hr ih =>
    exact ⟨inv_dispose s ih.1, hasNoRoot_dispose s ih.2⟩

end ResourceGlobMatcher

open ResourceGlobMatcher in
/-- C1: in every reachable `ResourceGlobMatcher` state — after construction
and any sequence of synchronize passes — the compiled-matcher map and the
stored-config map hold exactly the same root keys, and the matcher stored
under a key is semantically equivalent to freshly compiling the config stored
under that key (for every glob semantics, compile identity and path). Passes
are atomic state transitions of the single-threaded event loop, so a
`matches` query can only observe states satisfying this, never one map
updated with the other stale. -/
theorem ResourceGlobMatcher.maps_in_sync (su : IConfigurationChangeEvent → Bool)
    (s : ResourceGlobMatcher) (h : Reachable su s) :
    ∀ k, ((aget s.mapRootToParsedExpression k).isSome ↔
            (aget s.mapRootToExpressionConfig k).isSome) ∧
      ∀ p e, aget s.mapRootToParsedExpression k = some p →
        aget s.mapRootToExpressionConfig k = some e →
        ∀ (m : GlobSem) (id : Nat) (path : String),
          evalParsed m p path = evalParsed m (parse id e) path := by
  intro k
  have hinv := (reachable_invariants h).1 k
  refine ⟨hinv.1, ?_⟩
  intro p e hp he m id path
  have hsrc := hinv.2 p e hp he
  simp [evalParsed, parse, hsrc]

/-- C1 witness: the invariant evaluated at the `NO_ROOT` key of the freshly
constructed sample state. -/
theorem ResourceGlobMatcher.maps_in_sync_witness :
    ((aget sampleState.mapRootToParsedExpression none).isSome ↔
        (aget sampleState.mapRootToExpressionConfig none).isSome) ∧
      ∀ p e, aget sampleState.mapRootToParsedExpression none = some p →
        aget sampleState.mapRootToExpressionConfig none = some e →
        ∀ (m : GlobSem) (id : Nat) (path : String),
          evalParsed m p path = evalParsed m (parse id e) path :=
  ResourceGlobMatcher.maps_in_sync (fun _ => true) sampleState
    (ResourceGlobMatcher.Reachable.init sampleWorkspace sampleGlob) none

open ResourceGlobMatcher in
/-- C2: `matches` selects the compiled matcher stored for the resource's
owning root when there is one, and otherwise the `NO_ROOT` matcher; for a
resource owned by a folder it tests the normalized path of the resource
relative to the folder's filesystem path, and for an ownerless resource it
tests the raw filesystem path unchanged — in particular, for a root at `/ws`
and resource `/ws/src/file.txt` the tested path is `src/file.txt`, not
`/ws/src/file.txt`. -/
theorem ResourceGlobMatcher.matches_selection (m : GlobSem) (ws : Workspace)
    (s : ResourceGlobMatcher) (r : Resource) :
    (∀ f p, ws.getWorkspaceFolder r.uriString = some f →
        aget s.mapRootToParsedExpression (some f.uriString) = some p →
        matches' m ws s r =
          Except.ok (evalParsed m p (normalizePath (relativePath f.fsPath r.fsPath))).isSome) ∧
    (∀ f q, ws.getWorkspaceFolder r.uriString = some f →
        aget s.mapRootToParsedExpression (some f.uriString) = none →
        aget s.mapRootToParsedExpression none = some q →
        matches' m ws s r =
          Except.ok (evalParsed m q (normalizePath (relativePath f.fsPath r.fsPath))).isSome) ∧
    (∀ q, ws.getWorkspaceFolder r.uriString = none →
        aget s.mapRootToParsedExpression none = some q →
        matches' m ws s r = Except.ok (evalParsed m q r.fsPath).isSome) ∧
    normalizePath (relativePath "/ws" "/ws/src/file.txt") = "src/file.txt" := by
  refine ⟨?_, ?_, ?_, by decide⟩
  · intro f p hf hp
    simp [matches', hf, ahas, hp]
  · intro f q hf hp hq
    simp [matches', hf, ahas, hp, hq]
  · intro q hf hq
    simp [matches', hf, hq]

/-- C2 witness: in the sample workspace, matching `/ws/src/file.txt` under
the root `/ws` consults the root's matcher on the relative path
`src/file.txt`. -/
theorem ResourceGlobMatcher.matches_selection_witness :
    sampleWorkspace.getWorkspaceFolder sampleResource.uriString = some sampleFolder ∧
    aget sampleState.mapRootToParsedExpression (some sampleFolder.uriString) =
      some (parse 0 [("build/**", true)]) ∧
    ResourceGlobMatcher.matches' sampleSem sampleWorkspace sampleState sampleResource =
      Except.ok (evalParsed sampleSem (parse 0 [("build/**", true)])
        (normalizePath (relativePath sampleFolder.fsPath sampleResource.fsPath))).isSome :=
  ⟨rfl, rfl,
    (ResourceGlobMatcher.matches_selection sampleSem sampleWorkspace sampleState
      sampleResource).1 sampleFolder (parse 0 [("build/**", true)]) rfl rfl⟩

open ResourceGlobMatcher in
/-- C3: within one synchronize pass — (a) for a current folder whose freshly
fetched config is deeply equal to the stored one, neither the stored config
nor the stored compiled-matcher entry changes (the matcher keeps its
identity: it is reference-stable); (b) for a current folder with no stored
config or a non-equal one, the stored config becomes the fetched value, the
matcher becomes a fresh compilation of it (a compile identity not older than
the pass), and the pass records a change; (c) when every folder's fetched
config is equal to its stored one, no stored root is stale, and the global
config is equal too, the pass leaves the state untouched, records no change
and fires no notification. -/
theorem ResourceGlobMatcher.synchronize_equality_gating (ws : Workspace) (g : GlobFn)
    (s : ResourceGlobMatcher) :
    (∀ f ∈ ws.folders, ∀ c,
      aget s.mapRootToExpressionConfig (some f.uriString) = some c →
      equals c (g (some f.uriString)) = true →
      (ws.getWorkspaceFolder f.uriString).isSome →
      aget (updateExcludes ws g s).1.mapRootToParsedExpression (some f.uriString) =
          aget s.mapRootToParsedExpression (some f.uriString) ∧
        aget (updateExcludes ws g s).1.mapRootToExpressionConfig (some f.uriString) = some c) ∧
    (∀ f ∈ ws.folders,
      (∀ c, aget s.mapRootToExpressionConfig (some f.uriString) = some c →
        equals c (g (some f.uriString)) = false) →
      (ws.getWorkspaceFolder f.uriString).isSome →
      aget (updateExcludes ws g s).1.mapRootToExpressionConfig (some f.uriString) =
          some (g (some f.uriString)) ∧
        (∃ p, aget (updateExcludes ws g s).1.mapRootToParsedExpression (some f.uriString) =
            some p ∧ p.source = g (some f.uriString) ∧ s.nextCompileId ≤ p.compileId) ∧
        (updateExcludes ws g s).2 = true) ∧
    ((∀ f ∈ ws.folders, ∃ c,
        aget s.mapRootToExpressionConfig (some f.uriString) = some c ∧
        equals c (g (some f.uriString)) = true) →
      (∀ kv ∈ s.mapRootToExpressionConfig, deadKey ws kv.1 = false) →
      (∀ kv ∈ s.mapRootToParsedExpression, deadKey ws kv.1 = false) →
      (∃ c, aget s.mapRootToExpressionConfig none = some c ∧ equals c (g none) = true) →
      updateExcludes ws g s = (s, false) ∧ ∀ fromEvent, updateFires ws g fromEvent s = 0) := by
  refine ⟨?_, ?_, ?_⟩
  · intro f hf c hc he halive
    have hdead : deadKey ws (some f.uriString) = false := by
      simp [deadKey, halive]
    have h1 := step1_stable g ws.folders s false f.uriString c hc he
    have hkp : step2keepParsed ws (step1 g ws.folders s false).1 (some f.uriString) = true := by
      simp [step2keepParsed, hdead]
    have hkc : step2keepConfig ws (some f.uriString) = true := by
      simp [step2keepConfig, hdead]
    have h2p : aget (step2 ws (step1 g ws.folders s false).1).1.mapRootToParsedExpression
        (some f.uriString) =
        aget (step1 g ws.folders s false).1.mapRootToParsedExpression (some f.uriString) := by
      rw [step2_parsed, hkp]
      simp
    have h2c : aget (step2 ws (step1 g ws.folders s false).1).1.mapRootToExpressionConfig
        (some f.uriString) =
        aget (step1 g ws.folders s false).1.mapRootToExpressionConfig (some f.uriString) := by
      rw [step2_config, hkc]
      simp
    have h3 := step3_some g (step2 ws (step1 g ws.folders s false).1).1 f.uriString
    rw [updateExcludes_eq]
    exact ⟨h3.1.trans (h2p.trans h1.1), h3.2.trans (h2c.trans h1.2)⟩
  · intro f hf hne halive
    have hdead : deadKey ws (some f.uriString) = false := by
      simp [deadKey, halive]
    have h1 := step1_replace g ws.folders s false f.uriString ⟨f, hf, rfl⟩ hne
    have hkp : step2keepParsed ws (step1 g ws.folders s false).1 (some f.uriString) = true := by
      simp [step2keepParsed, hdead]
    have hkc : step2keepConfig ws (some f.uriString) = true := by
      simp [step2keepConfig, hdead]
    have h2p : aget (step2 ws (step1 g ws.folders s false).1).1.mapRootToParsedExpression
        (some f.uriString) =
        aget (step1 g ws.folders s false).1.mapRootToParsedExpression (some f.uriString) := by
      rw [step2_parsed, hkp]
      simp
    have h2c : aget (step2 ws (step1 g ws.folders s false).1).1.mapRootToExpressionConfig
        (some f.uriString) =
        aget (step1 g ws.folders s false).1.mapRootToExpressionConfig (some f.uriString) := by
      rw [step2_config, hkc]
      simp
    have h3 := step3_some g (step2 ws (step1 g ws.folders s false).1).1 f.uriString
    rw [updateExcludes_eq]
    refine ⟨h3.2.trans (h2c.trans h1.1.1), ?_, by simp [h1.2]⟩
    obtain ⟨p, hp1, hp2, hp3⟩ := h1.1.2
    exact ⟨p, h3.1.trans (h2p.trans hp1), hp2, hp3⟩
  · intro hall hcdead hpdead hglobal
    obtain ⟨c0, hc0, he0⟩ := hglobal
    have h1 : step1 g ws.folders s false = (s, false) :=
      step1_all_equal g ws.folders s false hall
    have h2 : step2 ws s = (s, false) := step2_no_dead ws s hcdead hpdead
    have h3 : step3 g s = (s, false) := step3_keep_of g s c0 hc0 he0
    have hupd : updateExcludes ws g s = (s, false) := by
      rw [updateExcludes_eq, h1]
      simp only [h2, h3]
      rfl
    refine ⟨hupd, ?_⟩
    intro fromEvent
    simp [updateFires, hupd]

/-- C3 witness: a second synchronize pass over the sample state with the
unchanged sample provider leaves the root's compiled matcher entry untouched. -/
theorem ResourceGlobMatcher.synchronize_equality_gating_witness :
    sampleFolder ∈ sampleWorkspace.folders ∧
    aget sampleState.mapRootToExpressionConfig (some sampleFolder.uriString) =
      some [("build/**", true)] ∧
    equals [("build/**", true)] (sampleGlob (some sampleFolder.uriString)) = true ∧
    (sampleWorkspace.getWorkspaceFolder sampleFolder.uriString).isSome ∧
    (aget (ResourceGlobMatcher.updateExcludes sampleWorkspace sampleGlob
          sampleState).1.mapRootToParsedExpression (some sampleFolder.uriString) =
        aget sampleState.mapRootToParsedExpression (some sampleFolder.uriString) ∧
      aget (ResourceGlobMatcher.updateExcludes sampleWorkspace sampleGlob
          sampleState).1.mapRootToExpressionConfig (some sampleFolder.uriString) =
        some [("build/**", true)]) :=
  ⟨by decide, rfl, by decide, by decide,
    (ResourceGlobMatcher.synchronize_equality_gating sampleWorkspace sampleGlob
        sampleState).1 sampleFolder (by decide) [("build/**", true)] rfl (by decide)
      (by decide)⟩

open ResourceGlobMatcher in
/-- C4: a synchronize pass from any reachable state, under a workspace whose
current folders resolve to themselves, removes both the stored config and the
compiled matcher of every root key whose folder no longer exists — while the
`NO_ROOT` entry is present in both maps afterwards: workspace-folder changes
never remove it. The `NO_ROOT` sentinel is the `null` key, a value distinct
from every root-URI string key, so no string-valued key can be confused with
it. -/
theorem ResourceGlobMatcher.stale_roots_removed (su : IConfigurationChangeEvent → Bool)
    (ws : Workspace) (g : GlobFn) (s : ResourceGlobMatcher)
    (hreach : Reachable su s)
    (hcoh : ∀ f ∈ ws.folders, (ws.getWorkspaceFolder f.uriString).isSome) :
    (∀ u : String, ws.getWorkspaceFolder u = none →
      aget (updateExcludes ws g s).1.mapRootToExpressionConfig (some u) = none ∧
      aget (updateExcludes ws g s).1.mapRootToParsedExpression (some u) = none) ∧
    hasNoRoot (updateExcludes ws g s).1 := by
  have hinv := (reachable_invariants hreach).1
  refine ⟨?_, updateExcludes_hasNoRoot ws g s hinv⟩
  intro u hu
  have hdead : deadKey ws (some u) = true := by
    simp [deadKey, hu]
  have hnotf : ∀ f ∈ ws.folders, (some f.uriString : Option String) ≠ some u := by
    intro f hf he
    have := hcoh f hf
    rw [Option.some.injEq] at he
    rw [he, hu] at this
    simp at this
  have h1 := step1_frame g ws.folders s false (some u) hnotf
  have hkc : step2keepConfig ws (some u) = false := by
    simp [step2keepConfig, hdead]
  have h2c : aget (step2 ws (step1 g ws.folders s false).1).1.mapRootToExpressionConfig
      (some u) = none := by
    rw [step2_config, hkc]
    simp
  have h3 := step3_some g (step2 ws (step1 g ws.folders s false).1).1 u
  constructor
  · rw [updateExcludes_eq]
    exact h3.2.trans h2c
  · rw [updateExcludes_eq]
    rw [h3.1, step2_parsed]
    cases hkp : step2keepParsed ws (step1 g ws.folders s false).1 (some u) with
    | false => simp
    | true =>
      simp only [if_true]
      have hhas : ahas (step1 g ws.folders s false).1.mapRootToExpressionConfig (some u) =
          false := by
        by_contra hx
        simp only [step2keepParsed, hdead, Bool.true_and, Bool.not_eq_true'] at hkp
        exact hx hkp
      have hinv1 := step1_inv g ws.folders s false hinv (some u)
      unfold ahas at hhas
      cases hp : aget (step1 g ws.folders s false).1.mapRootToParsedExpression (some u) with
      | none => rfl
      | some p =>
        have := hinv1.1.mp (by simp [hp])
        simp [hhas] at this

/-- C4 witness: a pass in which the sample root has disappeared removes its
pair from the constructed sample state and keeps the `NO_ROOT` pair. -/
theorem ResourceGlobMatcher.stale_roots_removed_witness :
    (∀ f ∈ emptyWorkspace.folders, (emptyWorkspace.getWorkspaceFolder f.uriString).isSome) ∧
    emptyWorkspace.getWorkspaceFolder "file:///ws" = none ∧
    (aget (ResourceGlobMatcher.updateExcludes emptyWorkspace sampleGlob
        sampleState).1.mapRootToExpressionConfig (some "file:///ws") = none ∧
      aget (ResourceGlobMatcher.updateExcludes emptyWorkspace sampleGlob
        sampleState).1.mapRootToParsedExpression (some "file:///ws") = none) ∧
    ResourceGlobMatcher.hasNoRoot
      (ResourceGlobMatcher.updateExcludes emptyWorkspace sampleGlob sampleState).1 := by
  have h := ResourceGlobMatcher.stale_roots_removed (fun _ => true) emptyWorkspace
    sampleGlob sampleState
    (ResourceGlobMatcher.Reachable.init sampleWorkspace sampleGlob)
    (by intro f hf; simp [emptyWorkspace] at hf)
  exact ⟨by intro f hf; simp [emptyWorkspace] at hf, rfl, h.1 "file:///ws" rfl, h.2⟩

open ResourceGlobMatcher in
/-- C5: a synchronize pass fires the change notification at most once, and
exactly once precisely when it was triggered by an external event and some
step recorded a change; the initial pass run by the constructor, with
`fromEvent = false`, never fires, regardless of changes. -/
theorem ResourceGlobMatcher.notification_exactly_once (ws : Workspace) (g : GlobFn)
    (s : ResourceGlobMatcher) (fromEvent : Bool) :
    updateFires ws g fromEvent s ≤ 1 ∧
    (updateFires ws g fromEvent s = 1 ↔
      fromEvent = true ∧ (updateExcludes ws g s).2 = true) ∧
    updateFires ws g false s = 0 ∧
    constructFires ws g = 0 := by
  unfold constructFires updateFires
  cases fromEvent <;> cases h : (updateExcludes ws g s).2 <;> simp [h]

open ResourceGlobMatcher in
/-- C6: when the matcher is constructed with a `shouldUpdate` predicate that
rejects every configuration-change event, delivering any configuration-change
event is a complete no-op — no synchronize pass runs, the state is untouched
and no notification fires — whatever the provider now returns. -/
theorem ResourceGlobMatcher.shouldUpdate_false_blocks (su : IConfigurationChangeEvent → Bool)
    (hsu : ∀ e, su e = false) (e : IConfigurationChangeEvent) (ws : Workspace)
    (g : GlobFn) (s : ResourceGlobMatcher) :
    stepConfig su e ws g s = (s, 0) := by
  unfold stepConfig
  by_cases hd : s.disposed <;> simp [hd, hsu e]

/-- C6 witness: the always-false predicate blocks the sample event on the
sample state even though the provider changed. -/
theorem ResourceGlobMatcher.shouldUpdate_false_blocks_witness :
    (∀ e, (fun _ : IConfigurationChangeEvent => false) e = false) ∧
    ResourceGlobMatcher.stepConfig (fun _ => false) sampleEvent emptyWorkspace
      (fun _ => []) sampleState = (sampleState, 0) :=
  ⟨fun _ => rfl,
    ResourceGlobMatcher.shouldUpdate_false_blocks (fun _ => false) (fun _ => rfl)
      sampleEvent emptyWorkspace (fun _ => []) sampleState⟩

open ResourceGlobMatcher in
/-- C7 counterexample: in a state storing no compiled matcher at all
(reachable only before the constructor's initial pass), `matches` invokes the
absent matcher — in JavaScript a `TypeError`, embedded as `Except.error` —
rather than returning `false`; so "in the no-applicable-matcher case it
returns false" is false of the code. -/
theorem ResourceGlobMatcher.matches_no_matcher_throws :
    matches' sampleSem emptyWorkspace initState sampleResource = Except.error () ∧
    matches' sampleSem emptyWorkspace initState sampleResource ≠ Except.ok false := by
  exact ⟨rfl, by decide⟩

open ResourceGlobMatcher in
/-- C7 amended: `matches` never throws on any reachable state — the
constructor's initial pass and every later pass keep a `NO_ROOT` compiled
matcher stored, so for every resource some compiled matcher applies and a
boolean is returned. (In the unreachable no-applicable-matcher state the code
would throw, not return false.) -/
theorem ResourceGlobMatcher.matches_total (su : IConfigurationChangeEvent → Bool)
    (s : ResourceGlobMatcher) (h : Reachable su s) (m : GlobSem) (ws : Workspace)
    (r : Resource) :
    ∃ b, matches' m ws s r = Except.ok b := by
  obtain ⟨hq⟩ := (reachable_invariants h).2
  rw [Option.isSome_iff_exists] at hq
  obtain ⟨q, hq⟩ := hq
  cases hf : ws.getWorkspaceFolder r.uriString with
  | none =>
    refine ⟨(evalParsed m q r.fsPath).isSome, ?_⟩
    simp [matches', hf, hq]
  | some f =>
    cases hroot : aget s.mapRootToParsedExpression (some f.uriString) with
    | some p =>
      refine ⟨(evalParsed m p (normalizePath (relativePath f.fsPath r.fsPath))).isSome, ?_⟩
      simp [matches', hf, ahas, hroot]
    | none =>
      refine ⟨(evalParsed m q (normalizePath (relativePath f.fsPath r.fsPath))).isSome, ?_⟩
      simp [matches', hf, ahas, hroot, hq]

/-- C7 witness: on the constructed sample state, `matches` returns a
boolean. -/
theorem ResourceGlobMatcher.matches_total_witness :
    ∃ b, ResourceGlobMatcher.matches' sampleSem sampleWorkspace sampleState
      sampleResource = Except.ok b :=
  ResourceGlobMatcher.matches_total (fun _ => true) sampleState
    (ResourceGlobMatcher.Reachable.init sampleWorkspace sampleGlob) sampleSem
    sampleWorkspace sampleResource

open ResourceGlobMatcher in
/-- C8: after `dispose()`, delivering a configuration-change or
workspace-folder-change event is a total no-op: no exception (the transition
functions are total), no notification fired, no synchronization — both maps
are exactly as last synchronized — and `matches` on the disposed state
returns exactly what it returned before disposal. -/
theorem ResourceGlobMatcher.dispose_freezes (su : IConfigurationChangeEvent → Bool)
    (e : IConfigurationChangeEvent) (ws wsQuery : Workspace) (g : GlobFn)
    (s : ResourceGlobMatcher) (m : GlobSem) (r : Resource) :
    stepConfig su e ws g (dispose s) = (dispose s, 0) ∧
    stepFolders ws g (dispose s) = (dispose s, 0) ∧
    (dispose s).mapRootToParsedExpression = s.mapRootToParsedExpression ∧
    (dispose s).mapRootToExpressionConfig = s.mapRootToExpressionConfig ∧
    matches' m wsQuery (dispose s) r = matches' m wsQuery s r := by
  refine ⟨?_, ?_, rfl, rfl, rfl⟩
  · unfold stepConfig
    simp [dispose]
  · unfold stepFolders
    simp [dispose]

/-- C9: after `set(value)` followed by `reset()`, the scheme, language-id,
resource and extension context keys are cleared — the reset sequence resets
the language-id key twice — but the filename context key is not in the reset
sequence at all: it is left unchanged and still holds the basename bound by
the last `set(value)`. -/
theorem ResourceContextKey.reset_skips_filename (getMode : String → Option String)
    (v : URI) (s : ResourceContextKey) :
    (reset (set getMode (some v) s)).schemeKey = none ∧
    (reset (set getMode (some v) s)).langIdKey = none ∧
    (reset (set getMode (some v) s)).resourceKey = none ∧
    (reset (set getMode (some v) s)).extensionKey = none ∧
    (reset (set getMode (some v) s)).filenameKey = some (basenameOf v.fsPath) ∧
    resetActions.count KeyName.langId = 2 ∧
    KeyName.filename ∉ resetActions :=
  ⟨rfl, rfl, rfl, rfl, rfl, rfl, by decide⟩

/-! ## Lemmas: deep option mixing -/

theorem aget_append_ne {κ α : Type} [DecidableEq κ] (l : List (κ × α)) (k₀ k : κ) (v : α)
    (h : k₀ ≠ k) : aget (l ++ [(k₀, v)]) k = aget l k := by
  induction l with
  | nil => simp [aget, h]
  | cons kv rest ih =>
    obtain ⟨k', v'⟩ := kv
    by_cases hk : k' = k
    · simp [aget, hk]
    · simp [aget, hk, ih]

theorem aget_append_none {κ α : Type} [DecidableEq κ] (l : List (κ × α)) (k : κ) (v : α)
    (h : aget l k = none) : aget (l ++ [(k, v)]) k = some v := by
  induction l with
  | nil => simp [aget]
  | cons kv rest ih =>
    obtain ⟨k', v'⟩ := kv
    by_cases hk : k' = k
    · simp [aget, hk] at h
    · simp [aget, hk] at h ⊢
      exact ih h

theorem aget_mem {κ α : Type} [DecidableEq κ] (l : List (κ × α)) (k : κ) (v : α)
    (h : aget l k = some v) : (k, v) ∈ l := by
  induction l with
  | nil => simp [aget] at h
  | cons kv rest ih =>
    obtain ⟨k', v'⟩ := kv
    by_cases hk : k' = k
    · subst hk
      simp [aget] at h
      subst h
      exact List.mem_cons_self _ _
    · simp [aget, hk] at h
      exact List.mem_cons_of_mem _ (ih h)

theorem aget_none_not_mem {κ α : Type} [DecidableEq κ] (l : List (κ × α)) (k : κ)
    (h : aget l k = none) : k ∉ l.map Prod.fst := by
  induction l with
  | nil => simp
  | cons kv rest ih =>
    obtain ⟨k', v'⟩ := kv
    by_cases hk : k' = k
    · simp [aget, hk] at h
    · simp [aget, hk] at h
      intro hmem
      simp only [List.map_cons, List.mem_cons] at hmem
      rcases hmem with h1 | h1
      · exact hk h1.symm
      · exact ih h h1

theorem mem_keys_aset {κ α : Type} [DecidableEq κ] (l : List (κ × α)) (k k' : κ) (v : α)
    (h : k' ∈ (aset l k v).map Prod.fst) : k' ∈ l.map Prod.fst ∨ k' = k := by
  induction l with
  | nil =>
    simp [aset] at h
    exact Or.inr h
  | cons kv rest ih =>
    obtain ⟨k₀, v₀⟩ := kv
    by_cases hk : k₀ = k
    · simp only [aset, if_pos hk, List.map_cons, List.mem_cons] at h
      rcases h with h | h
      · exact Or.inr h
      · exact Or.inl (by simp [h])
    · simp only [aset, if_neg hk, List.map_cons, List.mem_cons] at h
      rcases h with h | h
      · exact Or.inl (by simp [h])
      · rcases ih h with h1 | h1
        · exact Or.inl (by simp only [List.map_cons, List.mem_cons]; exact Or.inr h1)
        · exact Or.inr h1

theorem mixinVal_obj_obj (df sf : List (String × OptVal)) :
    mixinVal (OptVal.obj df) (OptVal.obj sf) = OptVal.obj (mixin df sf) := by
  simp [mixinVal]

theorem mixinVal_prim_left (n : Nat) (s : OptVal) :
    mixinVal (OptVal.prim n) s = s := by
  simp [mixinVal]

theorem mixinVal_obj_prim (df : List (String × OptVal)) (n : Nat) :
    mixinVal (OptVal.obj df) (OptVal.prim n) = OptVal.prim n := by
  simp [mixinVal]

theorem mixin_nil (df : List (String × OptVal)) : mixin df [] = df := by
  simp [mixin]

theorem mixin_cons_some (df : List (String × OptVal)) (k : String) (sv dv : OptVal)
    (rest : List (String × OptVal)) (h : aget df k = some dv) :
    mixin df ((k, sv) :: rest) = mixin (aset df k (mixinVal dv sv)) rest := by
  rw [mixin]
  simp [h]

theorem mixin_cons_none (df : List (String × OptVal)) (k : String) (sv : OptVal)
    (rest : List (String × OptVal)) (h : aget df k = none) :
    mixin df ((k, sv) :: rest) = mixin (df ++ [(k, sv)]) rest := by
  rw [mixin]
  simp [h]

theorem mixin_frame (sf : List (String × OptVal)) : ∀ (df : List (String × OptVal))
    (k : String), k ∉ sf.map Prod.fst → aget (mixin df sf) k = aget df k := by
  induction sf with
  | nil =>
    intro df k _
    simp [mixin_nil]
  | cons kv rest ih =>
    obtain ⟨k₀, sv⟩ := kv
    intro df k h
    have hk : k₀ ≠ k := by
      intro he
      exact h (by simp [he])
    have hkrest : k ∉ rest.map Prod.fst := by
      intro hx
      exact h (by simp [hx])
    cases hag : aget df k₀ with
    | some dv =>
      rw [mixin_cons_some df k₀ sv dv rest hag, ih _ k hkrest,
        aget_aset_ne _ _ _ _ (fun he => hk he.symm)]
    | none =>
      rw [mixin_cons_none df k₀ sv rest hag, ih _ k hkrest,
        aget_append_ne _ _ _ _ hk]

theorem mixin_aget_source (sf : List (String × OptVal)) : ∀ (df : List (String × OptVal))
    (k : String) (w : OptVal), (sf.map Prod.fst).Nodup → aget sf k = some w →
    ∃ w', aget (mixin df sf) k = some w' ∧ (w' = w ∨ ∃ dv, w' = mixinVal dv w) := by
  induction sf with
  | nil =>
    intro df k w _ h
    simp [aget] at h
  | cons kv rest ih =>
    obtain ⟨k₀, sv⟩ := kv
    intro df k w hnd hw
    simp only [List.map_cons, List.nodup_cons] at hnd
    by_cases hk : k₀ = k
    · subst hk
      rw [aget, if_pos rfl] at hw
      rw [Option.some.injEq] at hw
      subst hw
      cases hag : aget df k₀ with
      | some dv =>
        rw [mixin_cons_some df k₀ sv dv rest hag, mixin_frame rest _ _ hnd.1,
          aget_aset_self]
        exact ⟨mixinVal dv sv, rfl, Or.inr ⟨dv, rfl⟩⟩
      | none =>
        rw [mixin_cons_none df k₀ sv rest hag, mixin_frame rest _ _ hnd.1,
          aget_append_none _ _ _ hag]
        exact ⟨sv, rfl, Or.inl rfl⟩
    · rw [aget, if_neg hk] at hw
      cases hag : aget df k₀ with
      | some dv =>
        rw [mixin_cons_some df k₀ sv dv rest hag]
        exact ih _ k w hnd.2 hw
      | none =>
        rw [mixin_cons_none df k₀ sv rest hag]
        exact ih _ k w hnd.2 hw

theorem WFFields_mk (fs : List (String × OptVal)) (h1 : (fs.map Prod.fst).Nodup)
    (h2 : ∀ kv ∈ fs, WFVal kv.2) : WFFields fs :=
  WFVal.obj fs h1 h2

theorem WFFields_nodup {fs : List (String × OptVal)} (h : WFFields fs) :
    (fs.map Prod.fst).Nodup := by
  cases h with
  | obj _ hnd _ => exact hnd

theorem WFFields_val {fs : List (String × OptVal)} (h : WFFields fs) :
    ∀ kv ∈ fs, WFVal kv.2 := by
  cases h with
  | obj _ _ hall => exact hall

theorem WFFields_tail {kv : String × OptVal} {rest : List (String × OptVal)}
    (h : WFFields (kv :: rest)) : WFFields rest := by
  refine WFFields_mk rest ?_ ?_
  · have := WFFields_nodup h
    simp only [List.map_cons, List.nodup_cons] at this
    exact this.2
  · intro kv' hkv'
    exact WFFields_val h kv' (List.mem_cons_of_mem _ hkv')

theorem WFFields_aset (l : List (String × OptVal)) (k : String) (v : OptVal)
    (hl : WFFields l) (hv : WFVal v) : WFFields (aset l k v) := by
  induction l with
  | nil =>
    refine WFFields_mk _ (by simp [aset]) ?_
    intro kv hkv
    simp [aset] at hkv
    rw [hkv]
    exact hv
  | cons kv₀ rest ih =>
    obtain ⟨k₀, v₀⟩ := kv₀
    have hnd := WFFields_nodup hl
    simp only [List.map_cons, List.nodup_cons] at hnd
    have hrest : WFFields rest := WFFields_tail hl
    by_cases hk : k₀ = k
    · rw [show aset ((k₀, v₀) :: rest) k v = (k, v) :: rest from by simp [aset, hk]]
      refine WFFields_mk _ ?_ ?_
      · simp only [List.map_cons, List.nodup_cons]
        exact ⟨hk ▸ hnd.1, hnd.2⟩
      · intro kv hkv
        rcases List.mem_cons.mp hkv with h | h
        · rw [h]
          exact hv
        · exact WFFields_val hl kv (List.mem_cons_of_mem _ h)
    · rw [show aset ((k₀, v₀) :: rest) k v = (k₀, v₀) :: aset rest k v from by
        simp [aset, hk]]
      have ih' := ih hrest
      refine WFFields_mk _ ?_ ?_
      · simp only [List.map_cons, List.nodup_cons]
        refine ⟨?_, WFFields_nodup ih'⟩
        intro hmem
        rcases mem_keys_aset rest k k₀ v hmem with h | h
        · exact hnd.1 h
        · exact hk h
      · intro kv hkv
        rcases List.mem_cons.mp hkv with h | h
        · rw [h]
          exact WFFields_val hl (k₀, v₀) (List.mem_cons_self _ _)
        · exact WFFields_val ih' kv h

theorem WFFields_append_new (l : List (String × OptVal)) (k : String) (v : OptVal)
    (hl : WFFields l) (hv : WFVal v) (hk : aget l k = none) :
    WFFields (l ++ [(k, v)]) := by
  refine WFFields_mk _ ?_ ?_
  · rw [List.map_append]
    simp only [List.map_cons, List.map_nil]
    rw [show (l.map Prod.fst) ++ [k] = (l.map Prod.fst).concat k from
      (List.concat_eq_append _ _).symm]
    exact List.Nodup.concat (aget_none_not_mem l k hk) (WFFields_nodup hl)
  · intro kv hkv
    rcases List.mem_append.mp hkv with h | h
    · exact WFFields_val hl kv h
    · simp at h
      rw [h]
      exact hv

theorem wf_mixin_rank : ∀ (n : Nat) (sf df : List (String × OptVal)),
    sizeOf sf ≤ n → WFFields df → WFFields sf → WFFields (mixin df sf) := by
  intro n
  induction n with
  | zero =>
    intro sf df hsz _ _
    exfalso
    cases sf <;> simp at hsz
  | succ n ih =>
    intro sf df hsz hd hs
    cases sf with
    | nil => simpa [mixin_nil] using hd
    | cons kv rest =>
      obtain ⟨k, sv⟩ := kv
      have hszr : sizeOf rest ≤ n := by
        simp only [List.cons.sizeOf_spec, Prod.mk.sizeOf_spec] at hsz
        omega
      have hsv : WFVal sv := WFFields_val hs (k, sv) (List.mem_cons_self _ _)
      have hrest : WFFields rest := WFFields_tail hs
      cases hag : aget df k with
      | some dv =>
        rw [mixin_cons_some df k sv dv rest hag]
        have hdv : WFVal dv := WFFields_val hd (k, dv) (aget_mem df k dv hag)
        refine ih rest (aset df k (mixinVal dv sv)) hszr
          (WFFields_aset df k _ hd ?_) hrest
        cases dv with
        | prim m =>
          rw [mixinVal_prim_left]
          exact hsv
        | obj a =>
          cases sv with
          | prim o =>
            rw [mixinVal_obj_prim]
            exact WFVal.prim o
          | obj b =>
            rw [mixinVal_obj_obj]
            have hszb : sizeOf b ≤ n := by
              simp only [List.cons.sizeOf_spec, Prod.mk.sizeOf_spec,
                OptVal.obj.sizeOf_spec] at hsz
              omega
            exact ih b a hszb hdv hsv
      | none =>
        rw [mixin_cons_none df k sv rest hag]
        exact ih rest (df ++ [(k, sv)]) hszr (WFFields_append_new df k sv hd hsv hag) hrest

theorem wf_mixin (df sf : List (String × OptVal)) (hd : WFFields df) (hs : WFFields sf) :
    WFFields (mixin df sf) :=
  wf_mixin_rank (sizeOf sf) sf df le_rfl hd hs

theorem leafAtVal_mixinVal (p : List String) : ∀ (s d : OptVal) (v : Nat), WFVal s →
    leafAtVal p s = some v → leafAtVal p (mixinVal d s) = some v := by
  induction p with
  | nil =>
    intro s d v _ hl
    cases s with
    | prim n =>
      cases d with
      | prim m => simpa [mixinVal_prim_left] using hl
      | obj df => simpa [mixinVal_obj_prim] using hl
    | obj fs => simp [leafAtVal] at hl
  | cons k rest ih =>
    intro s d v hwf hl
    cases s with
    | prim n => simp [leafAtVal] at hl
    | obj sf =>
      cases hw : aget sf k with
      | none => simp [leafAtVal, hw] at hl
      | some w =>
        have hlw : leafAtVal rest w = some v := by
          simpa [leafAtVal, hw] using hl
        have hwfw : WFVal w := by
          cases hwf with
          | obj _ _ hall => exact hall (k, w) (aget_mem sf k w hw)
        have hnd : (sf.map Prod.fst).Nodup := by
          cases hwf with
          | obj _ hnd _ => exact hnd
        cases d with
        | prim m =>
          rw [mixinVal_prim_left]
          simp [leafAtVal, hw, hlw]
        | obj df =>
          rw [mixinVal_obj_obj]
          obtain ⟨w', hw', hcase⟩ := mixin_aget_source sf df k w hnd hw
          have hres : leafAtVal rest w' = some v := by
            rcases hcase with rfl | ⟨dv, rfl⟩
            · exact hlw
            · exact ih w dv v hwfw hlw
          simp [leafAtVal, hw', hres]

theorem leafAt_mixin (df sf : List (String × OptVal)) (p : List String) (v : Nat)
    (hs : WFFields sf) (h : leafAt sf p = some v) : leafAt (mixin df sf) p = some v := by
  have := leafAtVal_mixinVal p (OptVal.obj sf) (OptVal.obj df) v hs h
  rwa [mixinVal_obj_obj] at this

open EmbeddedCodeEditorWidget in
/-- In every reachable widget state the accumulated overwrite options form a
well-formed object, and every option value they hold is also held by the
effective options (the overwrite set was applied last). -/
theorem EmbeddedCodeEditorWidget.wreach_invariant (w : EmbeddedCodeEditorWidget)
    (h : WReach w) :
    WFFields w.overwriteOptions ∧
    ∀ p v, leafAt w.overwriteOptions p = some v → leafAt w.effectiveOptions p = some v := by
  induction h with
  | init parentRaw opts hwf =>
    refine ⟨hwf, ?_⟩
    intro p v hv
    exact leafAt_mixin parentRaw opts p v hwf hv
  | upd w newOptions hw hwfnew ih =>
    have hwf' : WFFields (mixin w.overwriteOptions newOptions) :=
      wf_mixin _ _ ih.1 hwfnew
    refine ⟨hwf', ?_⟩
    intro p v hv
    exact leafAt_mixin w.effectiveOptions _ p v hwf' hv
  | parent w parentRaw hw ih =>
    refine ⟨ih.1, ?_⟩
    intro p v hv
    exact leafAt_mixin _ _ p v ih.1 hv

open EmbeddedCodeEditorWidget in
/-- C10 counterexample: when a parent configuration change delivers a raw
config that dropped a key, the embedded widget's effective options keep the
stale previous value for that key, so they are not equal to the parent's raw
configuration overridden by the accumulated overwrite options. -/
theorem EmbeddedCodeEditorWidget.parent_raw_override_counterexample :
    (onParentConfigurationChanged (construct [("a", OptVal.prim 1)] [])
        []).effectiveOptions ≠
      mixin []
        (onParentConfigurationChanged (construct [("a", OptVal.prim 1)] [])
          []).overwriteOptions := by
  have h1 : (onParentConfigurationChanged (construct [("a", OptVal.prim 1)] [])
      []).effectiveOptions = [("a", OptVal.prim 1)] := by
    simp [onParentConfigurationChanged, construct, superUpdateOptions, mixin_nil]
  have h2 : mixin ([] : OptFields)
      (onParentConfigurationChanged (construct [("a", OptVal.prim 1)] [])
        []).overwriteOptions = [] := by
    simp [onParentConfigurationChanged, construct, superUpdateOptions, mixin_nil]
  rw [h1, h2]
  simp

open EmbeddedCodeEditorWidget in
/-- C10 amended: for `EmbeddedCodeEditorWidget` (and the line-for-line
identical `EmbeddedDiffEditorWidget`), in every reachable state —
construction followed by any interleaving of `updateOptions` calls and
parent-editor configuration changes — `updateOptions` deep-mixes the new
options into the stored overwrite set; the overwrite set is always re-applied
last, on top of the previous effective options and, on a parent change, the
parent's raw configuration; consequently every option value in the overwrite
set is present in the effective options, and an explicitly overwritten option
is never reverted by a parent configuration change. (The effective options
need not equal the parent raw config overridden by the overwrite set: a key
dropped by the parent keeps its stale value, as the counterexample shows.) -/
theorem EmbeddedCodeEditorWidget.overwrite_never_reverted (w : EmbeddedCodeEditorWidget)
    (h : WReach w) :
    (∀ newOptions, (updateOptions w newOptions).overwriteOptions =
        mixin w.overwriteOptions newOptions ∧
      (updateOptions w newOptions).effectiveOptions =
        superUpdateOptions w.effectiveOptions (mixin w.overwriteOptions newOptions)) ∧
    (∀ parentRaw, (onParentConfigurationChanged w parentRaw).effectiveOptions =
        superUpdateOptions (superUpdateOptions w.effectiveOptions parentRaw)
          w.overwriteOptions) ∧
    (∀ p v, leafAt w.overwriteOptions p = some v →
      leafAt w.effectiveOptions p = some v) ∧
    (∀ parentRaw p v, leafAt w.overwriteOptions p = some v →
      leafAt (onParentConfigurationChanged w parentRaw).effectiveOptions p = some v) := by
  have hinv := wreach_invariant w h
  refine ⟨fun _ => ⟨rfl, rfl⟩, fun _ => rfl, hinv.2, ?_⟩
  intro parentRaw p v hv
  exact leafAt_mixin _ _ p v hinv.1 hv

open EmbeddedCodeEditorWidget in
/-- C10 witness: an overwritten option (`b := 2`) set at construction is still
in effect after a parent configuration change that drops every key. -/
theorem EmbeddedCodeEditorWidget.overwrite_never_reverted_witness :
    WFFields [("b", OptVal.prim 2)] ∧
    leafAt (construct [("a", OptVal.prim 1)]
      [("b", OptVal.prim 2)]).overwriteOptions ["b"] = some 2 ∧
    leafAt (onParentConfigurationChanged
        (construct [("a", OptVal.prim 1)] [("b", OptVal.prim 2)])
        []).effectiveOptions ["b"] = some 2 := by
  have hwf : WFFields [("b", OptVal.prim 2)] := by
    refine WFFields_mk _ (by simp) ?_
    intro kv hkv
    simp only [List.mem_singleton] at hkv
    rw [hkv]
    exact WFVal.prim 2
  refine ⟨hwf, rfl, ?_⟩
  exact (EmbeddedCodeEditorWidget.overwrite_never_reverted _
      (WReach.init [("a", OptVal.prim 1)] [("b", OptVal.prim 2)] hwf)).2.2.2
    [] ["b"] 2 rfl
